import Mathlib

/-!
Verification development for the Pulse module-extraction system
(`src/utils/crawler.py` and `src/pulse/utils/extractor.py`).

Python strings are modelled as lists of characters (`Str`); Python dicts as
association lists preserving insertion order, with in-place overwrite on an
existing key, exactly as CPython dicts behave.  External library calls
(HTTP fetch, BeautifulSoup parsing, `urljoin`, trafilatura, `json.loads`,
the OpenAI client) are modelled as explicit input data or capability
parameters, as the code treats them as opaque capabilities; every piece of
control flow and state manipulation written in the repository itself is
translated directly.
-/

/-- Python strings as character lists. -/
abbrev Str := List Char

/-- Python `str.split()` / `str.strip()` whitespace test. -/
def isSpace (c : Char) : Bool := c.isWhitespace

/-- Python `str.strip()`: drop leading and trailing whitespace. -/
def pyStrip (s : Str) : Str :=
  ((s.dropWhile isSpace).reverse.dropWhile isSpace).reverse

/-- Python `str.lower()` (ASCII case folding suffices for the URLs involved). -/
def pyLower (s : Str) : Str := s.map Char.toLower

/-- Worker for `pySplit`: `acc` holds the current in-progress word, reversed. -/
def pySplitAux : Str → Str → List Str
  | [], acc => if acc = [] then [] else [acc.reverse]
  | c :: cs, acc =>
    if isSpace c then
      if acc = [] then pySplitAux cs [] else acc.reverse :: pySplitAux cs []
    else
      pySplitAux cs (c :: acc)

/-- Python `str.split()` with no argument: split on runs of whitespace,
producing no empty words. -/
def pySplit (s : Str) : List Str := pySplitAux s []

/-- Python `' '.join(words)`. -/
def joinWords : List Str → Str
  | [] => []
  | [w] => w
  | w :: x :: ws => w ++ ' ' :: joinWords (x :: ws)

/-- Python `sub in s` substring test. -/
def strHasInfix (s pat : Str) : Bool := s.tails.any fun t => pat.isPrefixOf t

/-- Python `s.endswith(pat)`. -/
def strEndsWith (s pat : Str) : Bool := pat.isSuffixOf s

/-- Lookup in a Python dict modelled as an association list. -/
def dictGet? {V : Type _} (m : List (Str × V)) (k : Str) : Option V :=
  match m with
  | [] => none
  | (k', v) :: rest => if k' = k then some v else dictGet? rest k

/-- Python `k in d`. -/
def hasKey {V : Type _} (m : List (Str × V)) (k : Str) : Bool :=
  m.any fun p => p.1 = k

/-- Python `d[k] = v`: overwrite in place if the key exists (keeping insertion
order), otherwise append a new entry, as CPython dicts do. -/
def dictSet {V : Type _} (m : List (Str × V)) (k : Str) (v : V) :
    List (Str × V) :=
  if hasKey m k then
    m.map fun p => if p.1 = k then (k, v) else p
  else
    m ++ [(k, v)]

/-- Python `defaultdict(list); d[k].append(v)`. -/
def dictAppend (m : List (Str × List Str)) (k : Str) (v : Str) :
    List (Str × List Str) :=
  if hasKey m k then
    m.map fun p => if p.1 = k then (p.1, p.2 ++ [v]) else p
  else
    m ++ [(k, [v])]

/- ### `ModuleExtractor._chunk_text` (src/pulse/utils/extractor.py lines 23–45)

The Python code scores each word as `len(word) / 0.75` (a float) and compares
running sums against `max_tokens`.  `len(word) / 0.75` equals `4 * len / 3`
exactly; to keep the arithmetic in `Nat` we track three times every token
count, so a word scores `4 * len` and the limit becomes `3 * max_tokens`.
The comparisons are exactly equivalent to the real-number readings of the
source expressions. -/

/-- Three times the approximate token count `len(word) / 0.75` of one word. -/
def wordTokens3 (w : Str) : Nat := 4 * w.length

/-- Three times the summed approximate token count of a word list. -/
def tokenSum3 (ws : List Str) : Nat := (ws.map wordTokens3).sum

/-- The word-accumulating loop of `_chunk_text`, keeping chunks as word lists
(the source joins each chunk with `' '.join` the moment it is emitted;
`chunkLoop` keeps the word list and `chunkText` applies the same join).
Arguments: remaining words, `current_chunk`, 3× `current_length`, emitted
chunks. -/
def chunkLoop (maxTokens : Nat) :
    List Str → List Str → Nat → List (List Str) → List (List Str)
  | [], currentChunk, _, chunks =>
    if currentChunk = [] then chunks else chunks ++ [currentChunk]
  | w :: ws, currentChunk, currentLength, chunks =>
    if currentLength + wordTokens3 w > 3 * maxTokens ∧ currentChunk ≠ [] then
      chunkLoop maxTokens ws [w] (wordTokens3 w) (chunks ++ [currentChunk])
    else
      chunkLoop maxTokens ws (currentChunk ++ [w])
        (currentLength + wordTokens3 w) chunks

/-- The chunks of `_chunk_text` as word lists. -/
def chunkWordLists (maxTokens : Nat) (text : Str) : List (List Str) :=
  chunkLoop maxTokens (pySplit text) [] 0 []

/-- `ModuleExtractor._chunk_text(text, max_tokens)`. -/
def chunkText (maxTokens : Nat) (text : Str) : List Str :=
  (chunkWordLists maxTokens text).map joinWords

/-- A word as produced by `str.split()`: non-empty and free of whitespace. -/
def goodWord (w : Str) : Prop := w ≠ [] ∧ ∀ c ∈ w, isSpace c = false

theorem pySplitAux_goodWord (s : Str) :
    ∀ acc : Str, (∀ c ∈ acc, isSpace c = false) →
      ∀ w ∈ pySplitAux s acc, goodWord w := by
  induction s with
  | nil =>
    intro acc hacc w hw
    by_cases h : acc = []
    · simp [pySplitAux, h] at hw
    · simp [pySplitAux, h] at hw
      subst hw
      refine ⟨by simpa using h, ?_⟩
      intro c hc
      exact hacc c (List.mem_reverse.mp hc)
  | cons c cs ih =>
    intro acc hacc w hw
    by_cases hsp : isSpace c
    · by_cases h : acc = []
      · simp [pySplitAux, hsp, h] at hw
        exact ih [] (by simp) w hw
      · simp [pySplitAux, hsp, h] at hw
        rcases hw with hw | hw
        · subst hw
          refine ⟨by simpa using h, ?_⟩
          intro d hd
          exact hacc d (List.mem_reverse.mp hd)
        · exact ih [] (by simp) w hw
    · simp [pySplitAux, hsp] at hw
      refine ih (c :: acc) ?_ w hw
      intro d hd
      rcases List.mem_cons.mp hd with h | h
      · subst h; simpa using hsp
      · exact hacc d h

theorem pySplit_goodWord (s : Str) : ∀ w ∈ pySplit s, goodWord w :=
  pySplitAux_goodWord s [] (by simp)

theorem pySplitAux_append (w : Str) :
    ∀ t acc : Str, (∀ c ∈ w, isSpace c = false) →
      pySplitAux (w ++ t) acc = pySplitAux t (w.reverse ++ acc) := by
  induction w with
  | nil => intro t acc _; simp
  | cons c w ih =>
    intro t acc h
    have hc : isSpace c = false := h c (by simp)
    simp only [List.cons_append, pySplitAux, hc, Bool.false_eq_true, if_false,
      List.append_eq]
    rw [ih t (c :: acc) (fun d hd => h d (by simp [hd]))]
    simp [List.append_assoc]

theorem pySplit_joinWords (ws : List Str) :
    (∀ w ∈ ws, goodWord w) → pySplit (joinWords ws) = ws := by
  induction ws with
  | nil => intro _; rfl
  | cons w rest ih =>
    intro h
    have hw : goodWord w := h w (by simp)
    cases rest with
    | nil =>
      show pySplit w = [w]
      have : pySplit (w ++ []) = [w] := by
        unfold pySplit
        rw [pySplitAux_append w [] [] hw.2]
        simp [pySplitAux, hw.1]
      simpa using this
    | cons x rest2 =>
      show pySplit (w ++ ' ' :: joinWords (x :: rest2)) = w :: x :: rest2
      unfold pySplit
      rw [pySplitAux_append w (' ' :: joinWords (x :: rest2)) [] hw.2]
      have hrev : ¬(w.reverse ++ [] = []) := by simpa using hw.1
      have hs : isSpace ' ' = true := by decide
      simp only [pySplitAux, hs, if_true, hrev, if_false]
      have := ih (fun u hu => h u (by simp [hu]))
      simp [pySplit] at this
      simp [this]

theorem chunkLoop_flatten (maxTokens : Nat) (ws : List Str) :
    ∀ (cur : List Str) (len : Nat) (chunks : List (List Str)),
      (chunkLoop maxTokens ws cur len chunks).flatten =
        chunks.flatten ++ cur ++ ws := by
  induction ws with
  | nil =>
    intro cur len chunks
    by_cases h : cur = [] <;> simp [chunkLoop, h]
  | cons w ws ih =>
    intro cur len chunks
    by_cases h : len + wordTokens3 w > 3 * maxTokens ∧ cur ≠ []
    · simp only [chunkLoop]
      rw [if_pos h, ih]
      simp [List.append_assoc]
    · simp only [chunkLoop]
      rw [if_neg h, ih]
      simp [List.append_assoc]

theorem chunkWordLists_flatten (maxTokens : Nat) (text : Str) :
    (chunkWordLists maxTokens text).flatten = pySplit text := by
  unfold chunkWordLists
  rw [chunkLoop_flatten]
  simp

theorem chunkLoop_mem_ne_nil (maxTokens : Nat) (ws : List Str) :
    ∀ (cur : List Str) (len : Nat) (chunks : List (List Str)),
      (∀ c ∈ chunks, c ≠ []) →
      ∀ c ∈ chunkLoop maxTokens ws cur len chunks, c ≠ [] := by
  induction ws with
  | nil =>
    intro cur len chunks hch c hc
    by_cases h : cur = []
    · simp [chunkLoop, h] at hc
      exact hch c hc
    · simp [chunkLoop, h] at hc
      rcases hc with hc | hc
      · exact hch c hc
      · subst hc; exact h
  | cons w ws ih =>
    intro cur len chunks hch c hc
    by_cases h : len + wordTokens3 w > 3 * maxTokens ∧ cur ≠ []
    · simp only [chunkLoop] at hc
      rw [if_pos h] at hc
      refine ih [w] (wordTokens3 w) (chunks ++ [cur]) ?_ c hc
      intro d hd
      rcases List.mem_append.mp hd with hd | hd
      · exact hch d hd
      · simp at hd; subst hd; exact h.2
    · simp only [chunkLoop] at hc
      rw [if_neg h] at hc
      exact ih (cur ++ [w]) (len + wordTokens3 w) chunks hch c hc

theorem chunkWordLists_mem_goodWord (maxTokens : Nat) (text : Str) :
    ∀ c ∈ chunkWordLists maxTokens text, ∀ w ∈ c, goodWord w := by
  intro c hc w hw
  have : w ∈ (chunkWordLists maxTokens text).flatten :=
    List.mem_flatten.mpr ⟨c, hc, hw⟩
  rw [chunkWordLists_flatten] at this
  exact pySplit_goodWord text w this

theorem joinWords_append (a : List Str) :
    ∀ b : List Str, a ≠ [] → b ≠ [] →
      joinWords (a ++ b) = joinWords a ++ ' ' :: joinWords b := by
  induction a with
  | nil => intro b h _; exact absurd rfl h
  | cons x a ih =>
    intro b _ hb
    cases a with
    | nil =>
      cases b with
      | nil => exact absurd rfl hb
      | cons y b' => simp [joinWords]
    | cons z a' =>
      have e1 : joinWords ((x :: z :: a') ++ b) =
          x ++ ' ' :: joinWords ((z :: a') ++ b) := by
        simp [joinWords]
      have e2 : joinWords (x :: z :: a') = x ++ ' ' :: joinWords (z :: a') := by
        simp [joinWords]
      rw [e1, e2, ih b (by simp) hb]
      simp

theorem joinWords_map_joinWords (ll : List (List Str)) :
    (∀ l ∈ ll, l ≠ []) →
      joinWords (ll.map joinWords) = joinWords ll.flatten := by
  induction ll with
  | nil => intro _; rfl
  | cons l rest ih =>
    intro h
    have hl : l ≠ [] := h l (by simp)
    cases rest with
    | nil => simp [joinWords]
    | cons r rest2 =>
      have hr : r ≠ [] := h r (by simp)
      have hflat : (r :: rest2).flatten ≠ [] := by
        cases r with
        | nil => exact absurd rfl hr
        | cons a b => simp
      show joinWords (joinWords l :: (r :: rest2).map joinWords) =
        joinWords (l ++ (r :: rest2).flatten)
      rw [joinWords_append l (r :: rest2).flatten hl hflat]
      have : joinWords (joinWords l :: (r :: rest2).map joinWords) =
          joinWords l ++ ' ' :: joinWords ((r :: rest2).map joinWords) := by
        simp [joinWords]
      rw [this, ih (fun u hu => h u (by simp [hu]))]

theorem joinWords_ne_nil (l : List Str) (hl : l ≠ [])
    (hw : ∀ w ∈ l, w ≠ []) : joinWords l ≠ [] := by
  cases l with
  | nil => exact absurd rfl hl
  | cons w rest =>
    cases rest with
    | nil => exact hw w (by simp)
    | cons x rest2 => simp [joinWords]

theorem tokenSum3_append (a b : List Str) :
    tokenSum3 (a ++ b) = tokenSum3 a + tokenSum3 b := by
  simp [tokenSum3]

theorem chunkLoop_tokenBound (maxTokens : Nat) (ws : List Str) :
    ∀ (cur : List Str) (len : Nat) (chunks : List (List Str)),
      len = tokenSum3 cur →
      (cur = [] ∨ cur.length = 1 ∨ tokenSum3 cur ≤ 3 * maxTokens) →
      (∀ c ∈ chunks, tokenSum3 c ≤ 3 * maxTokens ∨ c.length = 1) →
      ∀ c ∈ chunkLoop maxTokens ws cur len chunks,
        tokenSum3 c ≤ 3 * maxTokens ∨ c.length = 1 := by
  induction ws with
  | nil =>
    intro cur len chunks _ hcur hch c hc
    by_cases h : cur = []
    · simp [chunkLoop, h] at hc
      exact hch c hc
    · simp [chunkLoop, h] at hc
      rcases hc with hc | hc
      · exact hch c hc
      · subst hc
        rcases hcur with h' | h' | h'
        · exact absurd h' h
        · exact Or.inr h'
        · exact Or.inl h'
  | cons w ws ih =>
    intro cur len chunks hlen hcur hch c hc
    by_cases h : len + wordTokens3 w > 3 * maxTokens ∧ cur ≠ []
    · simp only [chunkLoop] at hc
      rw [if_pos h] at hc
      refine ih [w] (wordTokens3 w) (chunks ++ [cur])
        (by simp [tokenSum3]) (Or.inr (Or.inl rfl)) ?_ c hc
      intro d hd
      rcases List.mem_append.mp hd with hd | hd
      · exact hch d hd
      · simp at hd; subst hd
        rcases hcur with h' | h' | h'
        · exact absurd h' h.2
        · exact Or.inr h'
        · exact Or.inl h'
    · simp only [chunkLoop] at hc
      rw [if_neg h] at hc
      rcases Decidable.not_and_iff_or_not.mp h with h' | h'
      · have hle : len + wordTokens3 w ≤ 3 * maxTokens := by omega
        refine ih (cur ++ [w]) (len + wordTokens3 w) chunks
          (by simp [tokenSum3_append, hlen, tokenSum3]) ?_ hch c hc
        refine Or.inr (Or.inr ?_)
        rw [tokenSum3_append, ← hlen]
        simpa [tokenSum3] using hle
      · have hnil : cur = [] := by
          by_cases hh : cur = []
          · exact hh
          · exact absurd hh h'
        subst hnil
        have hl0 : len = 0 := by simpa [tokenSum3] using hlen
        refine ih [w] (len + wordTokens3 w) chunks
          (by simp [tokenSum3, hl0]) (Or.inr (Or.inl rfl)) hch c hc

theorem chunkWordLists_ne_nil_mem (maxTokens : Nat) (text : Str) :
    ∀ c ∈ chunkWordLists maxTokens text, c ≠ [] :=
  chunkLoop_mem_ne_nil maxTokens (pySplit text) [] 0 [] (by simp)

theorem chunkWordLists_split (maxTokens : Nat) (text : Str) :
    ∀ c ∈ chunkWordLists maxTokens text, pySplit (joinWords c) = c := by
  intro c hc
  exact pySplit_joinWords c (chunkWordLists_mem_goodWord maxTokens text c hc)

/-- C7: for every input text and token limit, joining the chunks produced by
`_chunk_text` with single spaces and re-splitting on whitespace reproduces the
original whitespace-delimited word sequence; splitting each chunk individually
and concatenating also reproduces the word sequence (so no word is split
across two chunks); and no produced chunk is the empty string. -/
theorem chunkText_roundtrip (maxTokens : Nat) (text : Str) :
    pySplit (joinWords (chunkText maxTokens text)) = pySplit text ∧
    ((chunkText maxTokens text).map pySplit).flatten = pySplit text ∧
    ∀ c ∈ chunkText maxTokens text, c ≠ [] := by
  have hne := chunkWordLists_ne_nil_mem maxTokens text
  have hflat := chunkWordLists_flatten maxTokens text
  have hgood := chunkWordLists_mem_goodWord maxTokens text
  have hmap : (chunkText maxTokens text).map pySplit =
      chunkWordLists maxTokens text := by
    unfold chunkText
    rw [List.map_map]
    refine List.map_congr_left ?_ |>.trans (List.map_id _)
    intro c hc
    exact chunkWordLists_split maxTokens text c hc
  refine ⟨?_, ?_, ?_⟩
  · unfold chunkText
    rw [joinWords_map_joinWords _ hne,
      pySplit_joinWords _ (by rw [hflat]; exact pySplit_goodWord text), hflat]
  · rw [hmap, hflat]
  · intro c hc
    unfold chunkText at hc
    rcases List.mem_map.mp hc with ⟨wc, hwc, rfl⟩
    exact joinWords_ne_nil wc (hne wc hwc)
      (fun w hw => (hgood wc hwc w hw).1)

/-- C7 witness: the round-trip theorem applied at the concrete two-word input
`"ab cd"`, discharging the chunk-membership hypothesis of the third conjunct
at the single produced chunk. -/
theorem chunkText_roundtrip_witness :
    (['a', 'b', ' ', 'c', 'd'] : Str) ≠ [] :=
  (chunkText_roundtrip 6000 ['a', 'b', ' ', 'c', 'd']).2.2
    ['a', 'b', ' ', 'c', 'd'] (by decide)

/-- C8 counterexample: the input `" "` is a non-empty string, yet
`_chunk_text` produces no chunks at all, because `text.split()` yields no
words for whitespace-only input. -/
theorem chunkText_nonempty_counterexample :
    ([' '] : Str) ≠ [] ∧ chunkText 6000 [' '] = [] := by
  constructor
  · decide
  · decide

theorem pySplitAux_ne_nil (s : Str) :
    ∀ acc : Str, (s.any fun c => !isSpace c) = true ∨ acc ≠ [] →
      pySplitAux s acc ≠ [] := by
  induction s with
  | nil =>
    intro acc h
    rcases h with h | h
    · simp at h
    · simp [pySplitAux, h]
  | cons c cs ih =>
    intro acc h
    by_cases hsp : isSpace c
    · by_cases hacc : acc = []
      · subst hacc
        simp [pySplitAux, hsp]
        refine ih [] (Or.inl ?_)
        rcases h with h | h
        · simp [hsp] at h
          simpa using h
        · exact absurd rfl h
      · simp [pySplitAux, hsp, hacc]
    · simp [pySplitAux, hsp]
      exact ih (c :: acc) (Or.inr (by simp))

theorem chunkLoop_ne_nil (maxTokens : Nat) (ws : List Str) :
    ∀ (cur : List Str) (len : Nat) (chunks : List (List Str)),
      ws ≠ [] ∨ cur ≠ [] →
      chunkLoop maxTokens ws cur len chunks ≠ [] := by
  induction ws with
  | nil =>
    intro cur len chunks h
    rcases h with h | h
    · exact absurd rfl h
    · simp [chunkLoop, h]
  | cons w ws ih =>
    intro cur len chunks _
    by_cases h : len + wordTokens3 w > 3 * maxTokens ∧ cur ≠ []
    · simp only [chunkLoop]
      rw [if_pos h]
      exact ih [w] (wordTokens3 w) (chunks ++ [cur]) (Or.inr (by simp))
    · simp only [chunkLoop]
      rw [if_neg h]
      exact ih (cur ++ [w]) (len + wordTokens3 w) chunks (Or.inr (by simp))

/-- C8 (amended): for every input containing at least one non-whitespace
character, `_chunk_text` produces at least one chunk.  (The original claim
over all non-empty strings fails on whitespace-only input, for which
`text.split()` yields no words.) -/
theorem chunkText_nonempty_amended (maxTokens : Nat) (text : Str)
    (h : (text.any fun c => !isSpace c) = true) :
    chunkText maxTokens text ≠ [] := by
  have hsplit : pySplit text ≠ [] := pySplitAux_ne_nil text [] (Or.inl h)
  have hwcs : chunkWordLists maxTokens text ≠ [] :=
    chunkLoop_ne_nil maxTokens (pySplit text) [] 0 [] (Or.inl hsplit)
  unfold chunkText
  simpa using hwcs

/-- C8 witness: the amended theorem at the concrete one-character input
`"a"`. -/
theorem chunkText_nonempty_witness : chunkText 6000 ['a'] ≠ [] :=
  chunkText_nonempty_amended 6000 ['a'] (by decide)

/-- C10: every chunk produced by `_chunk_text` either has summed approximate
token count at or under the limit, or consists of exactly one word.  The
Python code scores a word as `len(word) / 0.75` and compares the running sum
with `max_tokens`; here all token counts are scaled by 3 (a word scores
`4 * len`, the limit becomes `3 * max_tokens`), which renders the same
real-number comparisons exactly in natural numbers. -/
theorem chunkText_tokenBound (maxTokens : Nat) (text : Str) :
    ∀ c ∈ chunkText maxTokens text,
      tokenSum3 (pySplit c) ≤ 3 * maxTokens ∨ (pySplit c).length = 1 := by
  intro c hc
  unfold chunkText at hc
  rcases List.mem_map.mp hc with ⟨wc, hwc, rfl⟩
  rw [chunkWordLists_split maxTokens text wc hwc]
  exact chunkLoop_tokenBound maxTokens (pySplit text) [] 0 []
    (by simp [tokenSum3]) (Or.inl rfl) (by simp) wc hwc

/-- C10 witness: the token-bound theorem at the concrete input `"abcd e"`
with limit 2 tokens, discharging the membership hypothesis at the oversized
single-word chunk `"abcd"`. -/
theorem chunkText_tokenBound_witness :
    tokenSum3 (pySplit ['a', 'b', 'c', 'd']) ≤ 3 * 2 ∨
      (pySplit ['a', 'b', 'c', 'd']).length = 1 :=
  chunkText_tokenBound 2 ['a', 'b', 'c', 'd', ' ', 'e'] ['a', 'b', 'c', 'd']
    (by decide)

/- ### `Crawler.is_valid_url` (src/utils/crawler.py lines 40–60)

`urllib.parse.urlparse` is a library call; `urlNetloc`/`urlPath` reproduce its
behaviour on the absolute (`scheme://host/path?query#fragment`) and relative
forms that reach `is_valid_url`: the netloc is what follows `://` up to the
first `/`, `?` or `#` (empty when there is no `://`), and the path is what
follows the netloc up to the first `?` or `#`. -/

/-- Drop everything through the first occurrence of `://`; `none` when the
string has no `://`. -/
def dropScheme : Str → Option Str
  | ':' :: '/' :: '/' :: rest => some rest
  | _ :: rest => dropScheme rest
  | [] => none

/-- `urlparse(s).netloc` for the URL shapes used by the crawler. -/
def urlNetloc (s : Str) : Str :=
  match dropScheme s with
  | none => []
  | some r => r.takeWhile fun c => c ≠ '/' ∧ c ≠ '?' ∧ c ≠ '#'

/-- `urlparse(s).path` for the URL shapes used by the crawler. -/
def urlPath (s : Str) : Str :=
  match dropScheme s with
  | none => s.takeWhile fun c => c ≠ '?' ∧ c ≠ '#'
  | some r =>
    (r.dropWhile fun c => c ≠ '/' ∧ c ≠ '?' ∧ c ≠ '#').takeWhile
      fun c => c ≠ '?' ∧ c ≠ '#'

/-- The fixed `skip_extensions` list of `is_valid_url`. -/
def skipExtensions : List Str :=
  [".pdf".data, ".jpg".data, ".png".data, ".gif".data, ".jpeg".data,
   ".svg".data, ".mp4".data, ".zip".data, ".css".data, ".js".data]

/-- The fixed `skip_patterns` list of `is_valid_url`. -/
def skipPatterns : List Str :=
  ["/cdn-cgi/".data, "/wp-content/".data, "/wp-includes/".data,
   "/static/".data, "/assets/".data]

/-- `Crawler.is_valid_url(url, base_url)`. -/
def isValidUrl (url baseUrl : Str) : Bool :=
  if url = [] then false
  else
    let baseDomain := urlNetloc baseUrl
    let urlDomain := urlNetloc url
    if skipExtensions.any (fun ext => strEndsWith (pyLower url) ext) then false
    else if skipPatterns.any (fun pat => strHasInfix url pat) then false
    else urlDomain = baseDomain || strEndsWith urlDomain ('.' :: baseDomain)

/-- C4 counterexample: the URL `http://a.com/f.pdf?x=1` has a lowercase path
ending in `.pdf`, yet `is_valid_url` accepts it (returns true), because the
extension check `url.lower().endswith(ext)` looks at the full URL, which here
ends in the query string rather than in `.pdf`. -/
theorem isValidUrl_blockedExt_counterexample :
    (skipExtensions.any fun ext =>
        strEndsWith (pyLower (urlPath ("http://a.com/f.pdf?x=1").data)) ext)
      = true ∧
    isValidUrl ("http://a.com/f.pdf?x=1").data ("http://a.com/").data
      = true := by
  constructor
  · decide
  · decide

/-- C4 (amended): `is_valid_url` returns false whenever the lowercase **full
URL** (not merely its path) ends with a member of the blocked-extension set;
a query string or fragment after the path defeats the check. -/
theorem isValidUrl_blockedExt_amended (url baseUrl : Str)
    (h : (skipExtensions.any fun ext => strEndsWith (pyLower url) ext)
      = true) :
    isValidUrl url baseUrl = false := by
  unfold isValidUrl
  by_cases hnil : url = []
  · simp [hnil]
  · simp [hnil, h]

/-- C4 witness: the amended theorem at the concrete blocked URL
`http://a.com/f.pdf`. -/
theorem isValidUrl_blockedExt_witness :
    isValidUrl ("http://a.com/f.pdf").data ("http://a.com/").data = false :=
  isValidUrl_blockedExt_amended ("http://a.com/f.pdf").data
    ("http://a.com/").data (by decide)

/- ### Content choice in `Crawler.extract_clean_text`
(src/utils/crawler.py lines 86–96)

`trafilatura.fetch_url`/`trafilatura.extract` are library calls; their
combined outcome is a parameter: `none` models a failed download or a `None`
extraction, `some t` a returned text `t`.  Python's float comparison
`len(traf_text) > len(enhanced_text) * 0.7` is rendered exactly as
`10 * len(traf_text) > 7 * len(enhanced_text)`. -/

/-- The choice between the trafilatura text and the structured
(`generate_structured_text`) rendering made at the end of
`extract_clean_text`. -/
def chooseContent (trafText : Option Str) (enhancedText : Str) : Str :=
  match trafText with
  | none => enhancedText
  | some t =>
    if t ≠ [] ∧ 10 * t.length > 7 * enhancedText.length then t
    else enhancedText

/-- One descendant element of a page region. -/
structure HElem where
  tag : Str
  idAttr : Option Str
  textContent : Str
  deriving DecidableEq

/-- A page region: its descendant elements in document order. -/
abbrev Region := List HElem

/-- `element.find_all(tag)`: matching descendants in document order. -/
def findAllTag (e : Region) (tag : Str) : List HElem :=
  e.filter fun el => el.tag = tag

/-- One entry of `structure["headings"]`. -/
structure Heading where
  level : Nat
  text : Str
  idStr : Str
  deriving DecidableEq

/-- The tag name `h{i}`. -/
def hTag (i : Nat) : Str := ['h', Char.ofNat (48 + i)]

/-- An element turned into a `structure["headings"]` entry:
`{"level": i, "text": heading.get_text().strip(), "id": heading.get('id', '')}`. -/
def mkHeading (i : Nat) (el : HElem) : Heading :=
  ⟨i, pyStrip el.textContent, el.idAttr.getD []⟩

/-- The `headings` component built by `extract_document_structure`:
`for i in range(1, 7): for heading in element.find_all(f'h{i}'): append …`. -/
def extractHeadings (e : Region) : List Heading :=
  (List.range' 1 6).foldl
    (fun acc i => acc ++ (findAllTag e (hTag i)).map (mkHeading i)) []

/-- The heading level of a tag name, `none` for non-heading tags.  Spec-side
helper for the document-order reading of the claim. -/
def headingLevel? (t : Str) : Option Nat :=
  if t = hTag 1 then some 1
  else if t = hTag 2 then some 2
  else if t = hTag 3 then some 3
  else if t = hTag 4 then some 4
  else if t = hTag 5 then some 5
  else if t = hTag 6 then some 6
  else none

/-- The headings of a region listed in document order, as the spec describes:
walk heading tags level 1–6 in document order collecting `{level, text, id}`. -/
def docOrderHeadings (e : Region) : List Heading :=
  e.foldr
    (fun el acc =>
      match headingLevel? el.tag with
      | some i => mkHeading i el :: acc
      | none => acc) []

/-- The document-order headings of `el :: e` unfold one element at a time. -/
theorem docOrderHeadings_cons (el : HElem) (e : Region) :
    docOrderHeadings (el :: e) =
      match headingLevel? el.tag with
      | some i => mkHeading i el :: docOrderHeadings e
      | none => docOrderHeadings e := rfl

/-- The per-level slice of `extractHeadings`. -/
def levelSlice (i : Nat) (e : Region) : List Heading :=
  (findAllTag e (hTag i)).map (mkHeading i)

theorem extractHeadings_eq_slices (e : Region) :
    extractHeadings e =
      levelSlice 1 e ++ levelSlice 2 e ++ levelSlice 3 e ++ levelSlice 4 e ++
        levelSlice 5 e ++ levelSlice 6 e := by
  show (List.range' 1 6).foldl
      (fun acc i => acc ++ (findAllTag e (hTag i)).map (mkHeading i)) [] = _
  simp [List.range', levelSlice]

theorem headingLevel?_eq_some {t : Str} {j : Nat}
    (h : headingLevel? t = some j) : t = hTag j := by
  unfold headingLevel? at h
  split_ifs at h with h1 h2 h3 h4 h5 h6 <;>
    simp only [Option.some.injEq, reduceCtorEq] at h <;> subst h <;> assumption

theorem headingLevel?_hTag {i : Nat} (h1 : 1 ≤ i) (h6 : i ≤ 6) :
    headingLevel? (hTag i) = some i := by
  interval_cases i <;> decide

theorem headingLevel?_bounds {t : Str} {j : Nat}
    (h : headingLevel? t = some j) : 1 ≤ j ∧ j ≤ 6 := by
  unfold headingLevel? at h
  split_ifs at h <;> simp only [Option.some.injEq] at h <;> omega

theorem hTag_inj {i j : Nat} (h1i : 1 ≤ i) (h6i : i ≤ 6) (h1j : 1 ≤ j)
    (h6j : j ≤ 6) (h : hTag i = hTag j) : i = j := by
  interval_cases i <;> interval_cases j <;> revert h <;> decide

theorem headingLevel?_none {t : Str} (h : headingLevel? t = none) :
    ∀ i, 1 ≤ i → i ≤ 6 → t ≠ hTag i := by
  intro i h1 h6 heq
  rw [heq, headingLevel?_hTag h1 h6] at h
  exact Option.noConfusion h

theorem levelSlice_cons_eq (i : Nat) (el : HElem) (e : Region)
    (ht : el.tag = hTag i) :
    levelSlice i (el :: e) = mkHeading i el :: levelSlice i e := by
  simp [levelSlice, findAllTag, List.filter_cons, ht]

theorem levelSlice_cons_ne (i : Nat) (el : HElem) (e : Region)
    (ht : el.tag ≠ hTag i) :
    levelSlice i (el :: e) = levelSlice i e := by
  simp [levelSlice, findAllTag, List.filter_cons, ht]

theorem mem_levelSlice_level {i : Nat} {e : Region} {x : Heading}
    (hx : x ∈ levelSlice i e) : x.level = i := by
  simp only [levelSlice, List.mem_map] at hx
  rcases hx with ⟨el, _, rfl⟩
  rfl

theorem docOrderHeadings_filter (i : Nat) (h1 : 1 ≤ i) (h6 : i ≤ 6)
    (e : Region) :
    (docOrderHeadings e).filter (fun h => h.level = i) = levelSlice i e := by
  induction e with
  | nil => rfl
  | cons el e ih =>
    rw [docOrderHeadings_cons]
    cases hl : headingLevel? el.tag with
    | none =>
      rw [levelSlice_cons_ne i el e (headingLevel?_none hl i h1 h6)]
      exact ih
    | some j =>
      have hjt : el.tag = hTag j := headingLevel?_eq_some hl
      have hjb := headingLevel?_bounds hl
      by_cases hij : j = i
      · subst hij
        rw [levelSlice_cons_eq j el e hjt]
        simp only [List.filter_cons]
        have : ((mkHeading j el).level = j) := rfl
        simp [this, ih]
      · have : el.tag ≠ hTag i := by
          rw [hjt]
          intro hc
          exact hij (hTag_inj hjb.1 hjb.2 h1 h6 hc)
        rw [levelSlice_cons_ne i el e this]
        simp only [List.filter_cons]
        have : ¬((mkHeading j el).level = i) := by
          simpa [mkHeading] using hij
        simp [this, ih]

theorem extractHeadings_filter (i : Nat) (h1 : 1 ≤ i) (h6 : i ≤ 6)
    (e : Region) :
    (extractHeadings e).filter (fun h => h.level = i) = levelSlice i e := by
  have hfs : ∀ j, (levelSlice j e).filter (fun h => h.level = i) =
      if j = i then levelSlice j e else [] := by
    intro j
    by_cases hij : j = i
    · subst hij
      simp only [if_pos rfl]
      apply List.filter_eq_self.mpr
      intro x hx
      simp [mem_levelSlice_level hx]
    · simp only [if_neg hij]
      apply List.filter_eq_nil_iff.mpr
      intro x hx
      simp [mem_levelSlice_level hx, hij]
  rw [extractHeadings_eq_slices]
  interval_cases i <;> simp [List.filter_append, hfs]

theorem permShift (s rest₁ rest₂ : List Heading) (x : Heading)
    (h : rest₁.Perm (x :: rest₂)) :
    (s ++ rest₁).Perm (x :: (s ++ rest₂)) :=
  (List.Perm.append_left s h).trans List.perm_middle

theorem slices_perm (e : Region) :
    (levelSlice 1 e ++ levelSlice 2 e ++ levelSlice 3 e ++ levelSlice 4 e ++
      levelSlice 5 e ++ levelSlice 6 e).Perm (docOrderHeadings e) := by
  induction e with
  | nil => rfl
  | cons el e ih =>
    rw [docOrderHeadings_cons]
    cases hl : headingLevel? el.tag with
    | none =>
      have hne := headingLevel?_none hl
      rw [levelSlice_cons_ne 1 el e (hne 1 (by omega) (by omega)),
        levelSlice_cons_ne 2 el e (hne 2 (by omega) (by omega)),
        levelSlice_cons_ne 3 el e (hne 3 (by omega) (by omega)),
        levelSlice_cons_ne 4 el e (hne 4 (by omega) (by omega)),
        levelSlice_cons_ne 5 el e (hne 5 (by omega) (by omega)),
        levelSlice_cons_ne 6 el e (hne 6 (by omega) (by omega))]
      exact ih
    | some j =>
      have hjt : el.tag = hTag j := headingLevel?_eq_some hl
      have hjb := headingLevel?_bounds hl
      have hner : ∀ i, j ≠ i → 1 ≤ i → i ≤ 6 → el.tag ≠ hTag i := by
        intro i hij h1 h6 hc
        rw [hjt] at hc
        exact hij (hTag_inj hjb.1 hjb.2 h1 h6 hc)
      have h1 := hjb.1
      have h6 := hjb.2
      interval_cases j
      · rw [levelSlice_cons_eq 1 el e hjt,
          levelSlice_cons_ne 2 el e (hner 2 (by omega) (by omega) (by omega)),
          levelSlice_cons_ne 3 el e (hner 3 (by omega) (by omega) (by omega)),
          levelSlice_cons_ne 4 el e (hner 4 (by omega) (by omega) (by omega)),
          levelSlice_cons_ne 5 el e (hner 5 (by omega) (by omega) (by omega)),
          levelSlice_cons_ne 6 el e (hner 6 (by omega) (by omega) (by omega))]
        simp only [List.cons_append, List.append_assoc] at ih ⊢
        exact ih.cons _
      · rw [levelSlice_cons_ne 1 el e (hner 1 (by omega) (by omega) (by omega)),
          levelSlice_cons_eq 2 el e hjt,
          levelSlice_cons_ne 3 el e (hner 3 (by omega) (by omega) (by omega)),
          levelSlice_cons_ne 4 el e (hner 4 (by omega) (by omega) (by omega)),
          levelSlice_cons_ne 5 el e (hner 5 (by omega) (by omega) (by omega)),
          levelSlice_cons_ne 6 el e (hner 6 (by omega) (by omega) (by omega))]
        simp only [List.cons_append, List.append_assoc] at ih ⊢
        exact List.Perm.trans (permShift (levelSlice 1 e) _ _ _ (List.Perm.refl _)) (ih.cons _)
      · rw [levelSlice_cons_ne 1 el e (hner 1 (by omega) (by omega) (by omega)),
          levelSlice_cons_ne 2 el e (hner 2 (by omega) (by omega) (by omega)),
          levelSlice_cons_eq 3 el e hjt,
          levelSlice_cons_ne 4 el e (hner 4 (by omega) (by omega) (by omega)),
          levelSlice_cons_ne 5 el e (hner 5 (by omega) (by omega) (by omega)),
          levelSlice_cons_ne 6 el e (hner 6 (by omega) (by omega) (by omega))]
        simp only [List.cons_append, List.append_assoc] at ih ⊢
        exact List.Perm.trans (permShift (levelSlice 1 e) _ _ _ (permShift (levelSlice 2 e) _ _ _ (List.Perm.refl _))) (ih.cons _)
      · rw [levelSlice_cons_ne 1 el e (hner 1 (by omega) (by omega) (by omega)),
          levelSlice_cons_ne 2 el e (hner 2 (by omega) (by omega) (by omega)),
          levelSlice_cons_ne 3 el e (hner 3 (by omega) (by omega) (by omega)),
          levelSlice_cons_eq 4 el e hjt,
          levelSlice_cons_ne 5 el e (hner 5 (by omega) (by omega) (by omega)),
          levelSlice_cons_ne 6 el e (hner 6 (by omega) (by omega) (by omega))]
        simp only [List.cons_append, List.append_assoc] at ih ⊢
        exact List.Perm.trans (permShift (levelSlice 1 e) _ _ _ (permShift (levelSlice 2 e) _ _ _ (permShift (levelSlice 3 e) _ _ _ (List.Perm.refl _)))) (ih.cons _)
      · rw [levelSlice_cons_ne 1 el e (hner 1 (by omega) (by omega) (by omega)),
          levelSlice_cons_ne 2 el e (hner 2 (by omega) (by omega) (by omega)),
          levelSlice_cons_ne 3 el e (hner 3 (by omega) (by omega) (by omega)),
          levelSlice_cons_ne 4 el e (hner 4 (by omega) (by omega) (by omega)),
          levelSlice_cons_eq 5 el e hjt,
          levelSlice_cons_ne 6 el e (hner 6 (by omega) (by omega) (by omega))]
        simp only [List.cons_append, List.append_assoc] at ih ⊢
        exact List.Perm.trans (permShift (levelSlice 1 e) _ _ _ (permShift (levelSlice 2 e) _ _ _ (permShift (levelSlice 3 e) _ _ _ (permShift (levelSlice 4 e) _ _ _ (List.Perm.refl _))))) (ih.cons _)
      · rw [levelSlice_cons_ne 1 el e (hner 1 (by omega) (by omega) (by omega)),
          levelSlice_cons_ne 2 el e (hner 2 (by omega) (by omega) (by omega)),
          levelSlice_cons_ne 3 el e (hner 3 (by omega) (by omega) (by omega)),
          levelSlice_cons_ne 4 el e (hner 4 (by omega) (by omega) (by omega)),
          levelSlice_cons_ne 5 el e (hner 5 (by omega) (by omega) (by omega)),
          levelSlice_cons_eq 6 el e hjt]
        simp only [List.cons_append, List.append_assoc] at ih ⊢
        exact List.Perm.trans (permShift (levelSlice 1 e) _ _ _ (permShift (levelSlice 2 e) _ _ _ (permShift (levelSlice 3 e) _ _ _ (permShift (levelSlice 4 e) _ _ _ (permShift (levelSlice 5 e) _ _ _ (List.Perm.refl _)))))) (ih.cons _)

theorem pairwise_const_level (i : Nat) (l : List Heading)
    (h : ∀ x ∈ l, x.level = i) :
    l.Pairwise (fun a b => a.level ≤ b.level) := by
  induction l with
  | nil => exact List.Pairwise.nil
  | cons a l ih =>
    refine List.Pairwise.cons ?_ (ih fun x hx => h x (by simp [hx]))
    intro b hb
    rw [h a (by simp), h b (by simp [hb])]

theorem extractHeadings_pairwise (e : Region) :
    (extractHeadings e).Pairwise (fun a b => a.level ≤ b.level) := by
  rw [extractHeadings_eq_slices]
  have pw : ∀ i, (levelSlice i e).Pairwise (fun a b => a.level ≤ b.level) :=
    fun i => pairwise_const_level i _ (fun x hx => mem_levelSlice_level hx)
  have cross : ∀ i j, i ≤ j →
      ∀ a ∈ levelSlice i e, ∀ b ∈ levelSlice j e, a.level ≤ b.level := by
    intro i j hij a ha b hb
    rw [mem_levelSlice_level ha, mem_levelSlice_level hb]
    exact hij
  refine List.pairwise_append.mpr ⟨?_, pw 6, ?_⟩
  · refine List.pairwise_append.mpr ⟨?_, pw 5, ?_⟩
    · refine List.pairwise_append.mpr ⟨?_, pw 4, ?_⟩
      · refine List.pairwise_append.mpr ⟨?_, pw 3, ?_⟩
        · refine List.pairwise_append.mpr ⟨pw 1, pw 2, cross 1 2 (by omega)⟩
        · intro a ha b hb
          rcases List.mem_append.mp ha with h | h
          · exact cross 1 3 (by omega) a h b hb
          · exact cross 2 3 (by omega) a h b hb
      · intro a ha b hb
        rcases List.mem_append.mp ha with h | h
        · rcases List.mem_append.mp h with h' | h'
          · exact cross 1 4 (by omega) a h' b hb
          · exact cross 2 4 (by omega) a h' b hb
        · exact cross 3 4 (by omega) a h b hb
    · intro a ha b hb
      rcases List.mem_append.mp ha with h | h
      · rcases List.mem_append.mp h with h' | h'
        · rcases List.mem_append.mp h' with h'' | h''
          · exact cross 1 5 (by omega) a h'' b hb
          · exact cross 2 5 (by omega) a h'' b hb
        · exact cross 3 5 (by omega) a h' b hb
      · exact cross 4 5 (by omega) a h b hb
  · intro a ha b hb
    rcases List.mem_append.mp ha with h | h
    · rcases List.mem_append.mp h with h' | h'
      · rcases List.mem_append.mp h' with h'' | h''
        · rcases List.mem_append.mp h'' with h3 | h3
          · exact cross 1 6 (by omega) a h3 b hb
          · exact cross 2 6 (by omega) a h3 b hb
        · exact cross 3 6 (by omega) a h'' b hb
      · exact cross 4 6 (by omega) a h' b hb
    · exact cross 5 6 (by omega) a h b hb

/-- C2 counterexample: a region whose document order is an `h2` followed by
an `h1`.  `extract_document_structure` lists the `h1` first (all level-1
headings are collected before any level-2 heading), so the produced headings
sequence differs from the document order. -/
theorem extractHeadings_docOrder_counterexample :
    extractHeadings
        [⟨("h2").data, none, ("b").data⟩, ⟨("h1").data, none, ("a").data⟩] ≠
      docOrderHeadings
        [⟨("h2").data, none, ("b").data⟩, ⟨("h1").data, none, ("a").data⟩] :=
  by decide

/-- C2 (amended): the headings sequence produced by
`extract_document_structure` is a permutation of the document-order heading
sequence, grouped by level — levels are non-decreasing along the produced
sequence, and within each level 1–6 the headings appear in document order —
but it is not the document order itself when levels interleave. -/
theorem extractHeadings_amended (e : Region) :
    (extractHeadings e).Perm (docOrderHeadings e) ∧
    (extractHeadings e).Pairwise (fun a b => a.level ≤ b.level) ∧
    ∀ i, 1 ≤ i → i ≤ 6 →
      (extractHeadings e).filter (fun h => h.level = i) =
        (docOrderHeadings e).filter (fun h => h.level = i) := by
  refine ⟨?_, extractHeadings_pairwise e, ?_⟩
  · rw [extractHeadings_eq_slices]
    exact slices_perm e
  · intro i h1 h6
    rw [extractHeadings_filter i h1 h6 e, docOrderHeadings_filter i h1 h6 e]

/-- C2 witness: the amended theorem at the concrete two-heading region,
discharging the level-range hypotheses at level 2. -/
theorem extractHeadings_amended_witness :
    (extractHeadings
        [⟨("h2").data, none, ("b").data⟩, ⟨("h1").data, none, ("a").data⟩]).filter
        (fun h => h.level = 2) =
      (docOrderHeadings
        [⟨("h2").data, none, ("b").data⟩, ⟨("h1").data, none, ("a").data⟩]).filter
        (fun h => h.level = 2) :=
  (extractHeadings_amended
      [⟨("h2").data, none, ("b").data⟩, ⟨("h1").data, none, ("a").data⟩]).2.2
    2 (by decide) (by decide)

/- ### The crawl engine: `Crawler.get_links`, `Crawler.prioritize_urls`,
`Crawler.crawl` (src/utils/crawler.py lines 277–400)

`requests.get` and BeautifulSoup are capabilities: the reachable web is a
finite table assigning each fetchable URL the data the crawler extracts from
its response.  A URL absent from the table models a request that raises
(timeout, connection error …), which both `extract_clean_text` and
`get_links` catch.  `links` holds the `(full_url, anchor_text)` pairs left
after the href filtering of `get_links` (skip empty, `javascript:` and `#`
hrefs), `urljoin` resolution and fragment stripping — all performed by
library calls — with `get_text(strip=True)` anchor text.  `title` is
`soup.title.string if soup.title else "Untitled"` before `.strip()`;
`metadata` and `structData` are the (opaque to these claims) results of
`extract_metadata` and `extract_document_structure`; `enhancedText` is the
`generate_structured_text` rendering and `trafText` the trafilatura
alternative (`none` when the download fails or extraction returns `None`). -/
structure Page (M S : Type) where
  title : Str
  metadata : M
  structData : S
  enhancedText : Str
  trafText : Option Str
  links : List (Str × Str)

/-- The reachable web: a finite fetch table. -/
abbrev Web (M S : Type) := List (Str × Page M S)

/-- `requests.get(url)`, returning `none` when the request raises. -/
def fetch {M S : Type} (web : Web M S) (url : Str) : Option (Page M S) :=
  dictGet? web url

/-- Constructor arguments `max_pages` and `max_depth` of `Crawler`
(`delay` only paces requests and has no semantic effect). -/
structure CrawlConfig where
  maxPages : Nat
  maxDepth : Nat

/-- The crawler's mutable state: `visited_urls`, `queue`, `content_map`,
`url_hierarchy`, `url_titles`, `url_depths`, `url_metadata`,
`url_structure`. -/
structure CrawlState (M S : Type) where
  visited : List Str
  queue : List (Str × Nat)
  contentMap : List (Str × Str)
  hierarchy : List (Str × List Str)
  titles : List (Str × Str)
  depths : List (Str × Nat)
  metadataMap : List (Str × M)
  structureMap : List (Str × S)

/-- `Crawler.extract_clean_text(url)` as a state transformer: on fetch
success it records the stripped title, the metadata and the document
structure for `url` and returns the chosen content text; on a raised
request it returns `""` leaving the state unchanged. -/
def extractCleanText {M S : Type} (web : Web M S) (st : CrawlState M S)
    (url : Str) : CrawlState M S × Str :=
  match fetch web url with
  | none => (st, [])
  | some page =>
    ({ st with
        titles := dictSet st.titles url (pyStrip page.title),
        metadataMap := dictSet st.metadataMap url page.metadata,
        structureMap := dictSet st.structureMap url page.structData },
      chooseContent page.trafText page.enhancedText)

/-- The body of the `for a_tag in soup.find_all('a', href=True)` loop of
`get_links`: for an in-scope, not-yet-visited link record the hierarchy
edge, set its depth to `current_depth + 1` (unconditionally), and record the
anchor text as a provisional title if the link has none yet. -/
def getLinksFold {M S : Type} (url : Str) (currentDepth : Nat)
    (acc : CrawlState M S × List Str) (link : Str × Str) :
    CrawlState M S × List Str :=
  if isValidUrl link.1 url = true ∧ link.1 ∉ acc.1.visited then
    ({ acc.1 with
        hierarchy := dictAppend acc.1.hierarchy url link.1,
        depths := dictSet acc.1.depths link.1 (currentDepth + 1),
        titles :=
          if link.2 ≠ [] ∧ ¬(hasKey acc.1.titles link.1 = true) then
            dictSet acc.1.titles link.1 link.2
          else acc.1.titles },
      acc.2 ++ [link.1])
  else acc

/-- `Crawler.get_links(url, current_depth)`: returns `[]` without fetching
at or beyond `max_depth`, returns `[]` when the request raises, and
otherwise folds the page's anchors. -/
def getLinks {M S : Type} (maxDepth : Nat) (web : Web M S)
    (st : CrawlState M S) (url : Str) (currentDepth : Nat) :
    CrawlState M S × List Str :=
  if currentDepth ≥ maxDepth then (st, [])
  else
    match fetch web url with
    | none => (st, [])
    | some page => page.links.foldl (getLinksFold url currentDepth) (st, [])

/-- The `documentation_patterns` of `prioritize_urls`. -/
def documentationPatterns : List Str :=
  ["article".data, "doc".data, "help".data, "guide".data, "faq".data,
   "tutorial".data, "support".data, "manual".data, "reference".data,
   "category".data, "section".data, "topic".data, "content".data]

/-- `get_url_priority(url)` inside `prioritize_urls`. -/
def getUrlPriority (url : Str) : Nat :=
  if documentationPatterns.any (fun pat => strHasInfix (pyLower url) pat) then 0
  else (url.filter (fun c => c = '/')).length

/-- Stable insertion of one element into a key-sorted list: the new element
goes before the first strictly-larger key, after equal keys already
present. -/
def insertByKey (key : Str → Nat) (x : Str) : List Str → List Str
  | [] => [x]
  | y :: ys =>
    if key x ≤ key y then x :: y :: ys else y :: insertByKey key x ys

/-- Stable sort by key, modelling Python's stable
`sorted(url_list, key=get_url_priority)`. -/
def sortByKey (key : Str → Nat) : List Str → List Str
  | [] => []
  | x :: xs => insertByKey key x (sortByKey key xs)

/-- `Crawler.prioritize_urls(url_list)`. -/
def prioritizeUrls (urls : List Str) : List Str :=
  sortByKey getUrlPriority urls

/-- One enqueue step of the crawl loop: append `(link, depth+1)` when the
link is neither visited nor already queued. -/
def enqueueLink {M S : Type} (depth : Nat) (s : CrawlState M S)
    (link : Str) : CrawlState M S :=
  if link ∉ s.visited ∧ ¬((s.queue.any fun q => q.1 = link) = true) then
    { s with queue := s.queue ++ [(link, depth + 1)] }
  else s

/-- The link-gathering and enqueueing phase of one visiting iteration:
`links = get_links(url, depth)` followed by — only below the depth cap —
enqueueing each prioritized link that is neither visited nor queued. -/
def linkPhase {M S : Type} (cfg : CrawlConfig) (web : Web M S)
    (st : CrawlState M S) (url : Str) (depth : Nat) : CrawlState M S :=
  let gl := getLinks cfg.maxDepth web st url depth
  if depth < cfg.maxDepth then
    (prioritizeUrls gl.2).foldl (enqueueLink depth) gl.1
  else gl.1

/-- The body of one visiting iteration of the crawl loop: mark `url`
visited, extract its content and store it when non-blank, then run the
link phase. -/
def crawlVisit {M S : Type} (cfg : CrawlConfig) (web : Web M S)
    (st : CrawlState M S) (url : Str) (depth : Nat)
    (rest : List (Str × Nat)) : CrawlState M S :=
  let st1 := { st with queue := rest, visited := url :: st.visited }
  let ec := extractCleanText web st1 url
  let st3 :=
    if pyStrip ec.2 ≠ [] then
      { ec.1 with contentMap := dictSet ec.1.contentMap url ec.2 }
    else ec.1
  linkPhase cfg web st3 url depth

/-- The `while self.queue and len(self.visited_urls) < self.max_pages`
loop of `Crawler.crawl`, with explicit fuel (`none` = fuel exhausted; the
termination theorem below shows the computed fuel bound always suffices). -/
def crawlLoopFuel {M S : Type} (cfg : CrawlConfig) (web : Web M S) :
    Nat → CrawlState M S → Option (CrawlState M S)
  | 0, _ => none
  | fuel + 1, st =>
    match st.queue with
    | [] => some st
    | (url, depth) :: rest =>
      if st.visited.length < cfg.maxPages then
        if url ∈ st.visited then
          crawlLoopFuel cfg web fuel { st with queue := rest }
        else
          crawlLoopFuel cfg web fuel (crawlVisit cfg web st url depth rest)
      else some st

/-- The largest per-page link count of the web table. -/
def linkBound {M S : Type} (web : Web M S) : Nat :=
  (web.map fun p => p.2.links.length).foldr max 0

/-- The loop variant: each iteration strictly decreases it (a skipped URL
shortens the queue; a visit spends one unit of the page budget, which
outweighs the at-most-`linkBound` links it can enqueue). -/
def crawlPotential {M S : Type} (cfg : CrawlConfig) (web : Web M S)
    (st : CrawlState M S) : Nat :=
  st.queue.length + (cfg.maxPages - st.visited.length) * (linkBound web + 1)

/-- The state set up at the top of `Crawler.crawl(start_url)`: everything
reset, the seed queued at depth 0 and `depths[start_url] = 0`. -/
def initState {M S : Type} (seed : Str) : CrawlState M S :=
  ⟨[], [(seed, 0)], [], [], [], [(seed, 0)], [], []⟩

/-- `Crawler.crawl(start_url)`: run the loop with sufficient fuel (the
termination theorem shows the `getD` default is never taken). -/
def crawl {M S : Type} (cfg : CrawlConfig) (web : Web M S) (seed : Str) :
    CrawlState M S :=
  (crawlLoopFuel cfg web (crawlPotential cfg web (initState seed) + 1)
      (initState seed)).getD (initState seed)

theorem dictGet?_eq_none_of_not_hasKey {V : Type _} (m : List (Str × V))
    (k : Str) (h : hasKey m k = false) : dictGet? m k = none := by
  induction m with
  | nil => rfl
  | cons p rest ih =>
    obtain ⟨k1, v1⟩ := p
    rw [hasKey, List.any_cons] at h
    rcases Bool.or_eq_false_iff.mp h with ⟨ha, hb⟩
    have h1 : ¬k1 = k := by simpa using ha
    simp only [dictGet?]
    rw [if_neg h1]
    exact ih hb

theorem dictGet?_append_of_none {V : Type _} (a b : List (Str × V)) (k : Str)
    (h : dictGet? a k = none) : dictGet? (a ++ b) k = dictGet? b k := by
  induction a with
  | nil => rfl
  | cons p rest ih =>
    obtain ⟨k1, v1⟩ := p
    simp only [dictGet?] at h
    by_cases hp : k1 = k
    · rw [if_pos hp] at h
      exact Option.noConfusion h
    · rw [if_neg hp] at h
      show dictGet? ((k1, v1) :: (rest ++ b)) k = dictGet? b k
      simp only [dictGet?]
      rw [if_neg hp]
      exact ih h

theorem dictGet?_append_of_some {V : Type _} (a b : List (Str × V)) (k : Str)
    (v : V) (h : dictGet? a k = some v) : dictGet? (a ++ b) k = some v := by
  induction a with
  | nil => exact Option.noConfusion h
  | cons p rest ih =>
    obtain ⟨k1, v1⟩ := p
    simp only [dictGet?] at h
    by_cases hp : k1 = k
    · rw [if_pos hp] at h
      show dictGet? ((k1, v1) :: (rest ++ b)) k = some v
      simp only [dictGet?]
      rw [if_pos hp]
      exact h
    · rw [if_neg hp] at h
      show dictGet? ((k1, v1) :: (rest ++ b)) k = some v
      simp only [dictGet?]
      rw [if_neg hp]
      exact ih h

theorem dictGet?_mapSet_self {V : Type _} (m : List (Str × V)) (k : Str)
    (v : V) (hk : hasKey m k = true) :
    dictGet? (m.map fun p => if p.1 = k then (k, v) else p) k = some v := by
  induction m with
  | nil => simp [hasKey] at hk
  | cons p rest ih =>
    obtain ⟨k1, v1⟩ := p
    by_cases hp : k1 = k
    · have hhead : (if (k1, v1).1 = k then (k, v) else (k1, v1)) = (k, v) :=
        if_pos hp
      simp only [List.map_cons]
      rw [hhead]
      simp [dictGet?]
    · have hhead : (if (k1, v1).1 = k then (k, v) else (k1, v1)) = (k1, v1) :=
        if_neg hp
      simp only [List.map_cons]
      rw [hhead]
      simp only [dictGet?]
      rw [if_neg hp]
      refine ih ?_
      simp only [hasKey, List.any_cons] at hk
      rcases Bool.or_eq_true_iff.mp hk with h | h
      · exact absurd (by simpa using h) hp
      · exact h

theorem dictGet?_map_ne {V : Type _} (m : List (Str × V)) (k : Str) (v : V)
    (k' : Str) (h : k' ≠ k) :
    dictGet? (m.map fun p => if p.1 = k then (k, v) else p) k' =
      dictGet? m k' := by
  induction m with
  | nil => rfl
  | cons p rest ih =>
    obtain ⟨k1, v1⟩ := p
    by_cases hp : k1 = k
    · have hhead : (if (k1, v1).1 = k then (k, v) else (k1, v1)) = (k, v) :=
        if_pos hp
      simp only [List.map_cons]
      rw [hhead]
      simp only [dictGet?]
      rw [if_neg (fun hc => h hc.symm),
        if_neg (show ¬k1 = k' by rw [hp]; exact fun hc => h hc.symm)]
      exact ih
    · have hhead : (if (k1, v1).1 = k then (k, v) else (k1, v1)) = (k1, v1) :=
        if_neg hp
      simp only [List.map_cons]
      rw [hhead]
      simp only [dictGet?]
      by_cases hpk : k1 = k'
      · rw [if_pos hpk, if_pos hpk]
      · rw [if_neg hpk, if_neg hpk]
        exact ih

theorem dictGet?_dictSet_self {V : Type _} (m : List (Str × V)) (k : Str)
    (v : V) : dictGet? (dictSet m k v) k = some v := by
  unfold dictSet
  by_cases hk : hasKey m k
  · rw [if_pos hk]
    exact dictGet?_mapSet_self m k v hk
  · rw [if_neg hk]
    rw [dictGet?_append_of_none m [(k, v)] k
      (dictGet?_eq_none_of_not_hasKey m k (by simpa using hk))]
    simp [dictGet?]

theorem dictGet?_dictSet_ne {V : Type _} (m : List (Str × V)) (k : Str)
    (v : V) (k' : Str) (h : k' ≠ k) :
    dictGet? (dictSet m k v) k' = dictGet? m k' := by
  unfold dictSet
  by_cases hk : hasKey m k
  · rw [if_pos hk]
    exact dictGet?_map_ne m k v k' h
  · rw [if_neg hk]
    cases hv : dictGet? m k' with
    | none =>
      rw [dictGet?_append_of_none m [(k, v)] k' hv]
      simp only [dictGet?]
      rw [if_neg (fun hc => h hc.symm)]
    | some w => exact dictGet?_append_of_some m [(k, v)] k' w hv

theorem hasKey_dictSet_imp {V : Type _} (m : List (Str × V)) (k : Str)
    (v : V) (k' : Str) (h : hasKey (dictSet m k v) k' = true) :
    k' = k ∨ hasKey m k' = true := by
  unfold dictSet at h
  by_cases hk : hasKey m k
  · rw [if_pos hk] at h
    right
    simp only [hasKey, List.any_eq_true] at h ⊢
    rcases h with ⟨x, hx, hxk⟩
    rcases List.mem_map.mp hx with ⟨p, hp, rfl⟩
    refine ⟨p, hp, ?_⟩
    by_cases hpk : p.1 = k
    · have hhead : (if p.1 = k then (k, v) else p) = (k, v) := if_pos hpk
      rw [hhead] at hxk
      simp only [decide_eq_true_eq] at hxk ⊢
      rw [hpk, hxk]
    · have hhead : (if p.1 = k then (k, v) else p) = p := if_neg hpk
      rw [hhead] at hxk
      exact hxk
  · rw [if_neg hk] at h
    simp only [hasKey, List.any_eq_true] at h ⊢
    rcases h with ⟨x, hx, hxk⟩
    rcases List.mem_append.mp hx with hx | hx
    · right; exact ⟨x, hx, hxk⟩
    · left
      simp only [List.mem_singleton] at hx
      subst hx
      simpa using (decide_eq_true_eq.mp hxk).symm

theorem extractCleanText_preserves {M S : Type} (web : Web M S)
    (st : CrawlState M S) (url : Str) :
    (extractCleanText web st url).1.visited = st.visited ∧
    (extractCleanText web st url).1.queue = st.queue ∧
    (extractCleanText web st url).1.contentMap = st.contentMap ∧
    (extractCleanText web st url).1.hierarchy = st.hierarchy ∧
    (extractCleanText web st url).1.depths = st.depths := by
  unfold extractCleanText
  cases fetch web url <;> simp

theorem extractCleanText_meta_keys {M S : Type} (web : Web M S)
    (st : CrawlState M S) (url : Str) (k : Str) :
    (hasKey (extractCleanText web st url).1.metadataMap k = true →
      k = url ∨ hasKey st.metadataMap k = true) ∧
    (hasKey (extractCleanText web st url).1.structureMap k = true →
      k = url ∨ hasKey st.structureMap k = true) := by
  unfold extractCleanText
  cases fetch web url with
  | none => exact ⟨fun h => Or.inr h, fun h => Or.inr h⟩
  | some page =>
    refine ⟨fun h => ?_, fun h => ?_⟩
    · exact hasKey_dictSet_imp _ _ _ _ (by simpa using h)
    · exact hasKey_dictSet_imp _ _ _ _ (by simpa using h)

theorem getLinksFold_preserves {M S : Type} (url : Str) (d : Nat)
    (ls : List (Str × Str)) :
    ∀ (st : CrawlState M S) (acc : List Str),
      (ls.foldl (getLinksFold url d) (st, acc)).1.visited = st.visited ∧
      (ls.foldl (getLinksFold url d) (st, acc)).1.queue = st.queue ∧
      (ls.foldl (getLinksFold url d) (st, acc)).1.contentMap = st.contentMap ∧
      (ls.foldl (getLinksFold url d) (st, acc)).1.metadataMap =
        st.metadataMap ∧
      (ls.foldl (getLinksFold url d) (st, acc)).1.structureMap =
        st.structureMap ∧
      (ls.foldl (getLinksFold url d) (st, acc)).2.length ≤
        acc.length + ls.length := by
  induction ls with
  | nil => intro st acc; simp
  | cons l ls ih =>
    intro st acc
    simp only [List.foldl_cons]
    by_cases hc : isValidUrl l.1 url = true ∧ l.1 ∉ st.visited
    · rw [getLinksFold, if_pos hc]
      rcases ih ({ st with
          hierarchy := dictAppend st.hierarchy url l.1,
          depths := dictSet st.depths l.1 (d + 1),
          titles :=
            if l.2 ≠ [] ∧ ¬(hasKey st.titles l.1 = true) then
              dictSet st.titles l.1 l.2
            else st.titles }) (acc ++ [l.1]) with
        ⟨h1, h2, h3, h4, h5, h6⟩
      refine ⟨h1, h2, h3, h4, h5, ?_⟩
      simp only [List.length_append, List.length_singleton] at h6
      simp only [List.length_cons]
      omega
    · rw [getLinksFold, if_neg hc]
      rcases ih st acc with ⟨h1, h2, h3, h4, h5, h6⟩
      refine ⟨h1, h2, h3, h4, h5, ?_⟩
      simp only [List.length_cons]
      omega

theorem fetch_links_le {M S : Type} (web : Web M S) (url : Str)
    (page : Page M S) (h : fetch web url = some page) :
    page.links.length ≤ linkBound web := by
  induction web with
  | nil => exact Option.noConfusion h
  | cons p rest ih =>
    obtain ⟨k1, v1⟩ := p
    simp only [fetch, dictGet?] at h
    by_cases hp : k1 = url
    · rw [if_pos hp] at h
      injection h with h
      subst h
      simp only [linkBound, List.map_cons, List.foldr_cons]
      exact Nat.le_max_left _ _
    · rw [if_neg hp] at h
      have := ih (by simpa [fetch] using h)
      simp only [linkBound, List.map_cons, List.foldr_cons]
      exact Nat.le_trans this (Nat.le_max_right _ _)

theorem getLinks_preserves {M S : Type} (maxDepth : Nat) (web : Web M S)
    (st : CrawlState M S) (url : Str) (d : Nat) :
    (getLinks maxDepth web st url d).1.visited = st.visited ∧
    (getLinks maxDepth web st url d).1.queue = st.queue ∧
    (getLinks maxDepth web st url d).1.contentMap = st.contentMap ∧
    (getLinks maxDepth web st url d).1.metadataMap = st.metadataMap ∧
    (getLinks maxDepth web st url d).1.structureMap = st.structureMap ∧
    (getLinks maxDepth web st url d).2.length ≤ linkBound web := by
  unfold getLinks
  by_cases hd : d ≥ maxDepth
  · rw [if_pos hd]
    simp
  · rw [if_neg hd]
    cases hf : fetch web url with
    | none => simp
    | some page =>
      rcases getLinksFold_preserves url d page.links st [] with
        ⟨h1, h2, h3, h4, h5, h6⟩
      refine ⟨h1, h2, h3, h4, h5, ?_⟩
      simp only [List.length_nil, Nat.zero_add] at h6
      exact Nat.le_trans h6 (fetch_links_le web url page hf)

theorem insertByKey_length (key : Str → Nat) (x : Str) (l : List Str) :
    (insertByKey key x l).length = l.length + 1 := by
  induction l with
  | nil => rfl
  | cons y ys ih =>
    simp only [insertByKey]
    by_cases h : key x ≤ key y
    · rw [if_pos h]; rfl
    · rw [if_neg h]
      simp [ih]

theorem sortByKey_length (key : Str → Nat) (l : List Str) :
    (sortByKey key l).length = l.length := by
  induction l with
  | nil => rfl
  | cons x xs ih =>
    simp only [sortByKey]
    rw [insertByKey_length, ih]
    rfl

theorem enqueue_preserves {M S : Type} (d : Nat) (links : List Str) :
    ∀ s : CrawlState M S,
      (links.foldl (enqueueLink d) s).visited = s.visited ∧
      (links.foldl (enqueueLink d) s).contentMap = s.contentMap ∧
      (links.foldl (enqueueLink d) s).metadataMap = s.metadataMap ∧
      (links.foldl (enqueueLink d) s).structureMap = s.structureMap ∧
      (links.foldl (enqueueLink d) s).depths = s.depths ∧
      (links.foldl (enqueueLink d) s).titles = s.titles ∧
      (links.foldl (enqueueLink d) s).hierarchy = s.hierarchy ∧
      (links.foldl (enqueueLink d) s).queue.length ≤
        s.queue.length + links.length := by
  induction links with
  | nil => intro s; simp
  | cons l ls ih =>
    intro s
    simp only [List.foldl_cons]
    by_cases hc : l ∉ s.visited ∧ ¬((s.queue.any fun q => q.1 = l) = true)
    · rw [enqueueLink, if_pos hc]
      rcases ih ({ s with queue := s.queue ++ [(l, d + 1)] }) with
        ⟨h1, h2, h3, h4, h5, h6, h7, h8⟩
      refine ⟨h1, h2, h3, h4, h5, h6, h7, ?_⟩
      simp only [List.length_append, List.length_singleton] at h8
      simp only [List.length_cons]
      omega
    · rw [enqueueLink, if_neg hc]
      rcases ih s with ⟨h1, h2, h3, h4, h5, h6, h7, h8⟩
      refine ⟨h1, h2, h3, h4, h5, h6, h7, ?_⟩
      simp only [List.length_cons]
      omega

theorem linkPhase_spec {M S : Type} (cfg : CrawlConfig) (web : Web M S)
    (st : CrawlState M S) (url : Str) (depth : Nat) :
    (linkPhase cfg web st url depth).visited = st.visited ∧
    (linkPhase cfg web st url depth).queue.length ≤
      st.queue.length + linkBound web ∧
    (linkPhase cfg web st url depth).contentMap = st.contentMap ∧
    (linkPhase cfg web st url depth).metadataMap = st.metadataMap ∧
    (linkPhase cfg web st url depth).structureMap = st.structureMap := by
  obtain ⟨g1, g2, g3, g4, g5, g6⟩ :=
    getLinks_preserves cfg.maxDepth web st url depth
  unfold linkPhase
  by_cases hd : depth < cfg.maxDepth
  · rw [if_pos hd]
    obtain ⟨q1, q2, q3, q4, q5, _, _, q8⟩ :=
      enqueue_preserves depth
        (prioritizeUrls (getLinks cfg.maxDepth web st url depth).2)
        (getLinks cfg.maxDepth web st url depth).1
    refine ⟨q1.trans g1, ?_, q2.trans g3, q3.trans g4, q4.trans g5⟩
    rw [g2] at q8
    have hlen : (prioritizeUrls
        (getLinks cfg.maxDepth web st url depth).2).length =
        (getLinks cfg.maxDepth web st url depth).2.length := by
      rw [prioritizeUrls, sortByKey_length]
    rw [hlen] at q8
    omega
  · rw [if_neg hd]
    exact ⟨g1, by rw [g2]; omega, g3, g4, g5⟩

theorem crawlVisit_spec {M S : Type} (cfg : CrawlConfig) (web : Web M S)
    (st : CrawlState M S) (url : Str) (depth : Nat)
    (rest : List (Str × Nat)) :
    (crawlVisit cfg web st url depth rest).visited = url :: st.visited ∧
    (crawlVisit cfg web st url depth rest).queue.length ≤
      rest.length + linkBound web ∧
    (∀ k, hasKey (crawlVisit cfg web st url depth rest).contentMap k = true →
      k = url ∨ hasKey st.contentMap k = true) ∧
    (∀ k, hasKey (crawlVisit cfg web st url depth rest).metadataMap k = true →
      k = url ∨ hasKey st.metadataMap k = true) ∧
    (∀ k,
      hasKey (crawlVisit cfg web st url depth rest).structureMap k = true →
      k = url ∨ hasKey st.structureMap k = true) := by
  obtain ⟨he1, he2, he3, he4, he5⟩ := extractCleanText_preserves web
    { st with queue := rest, visited := url :: st.visited } url
  have hmeta := extractCleanText_meta_keys web
    { st with queue := rest, visited := url :: st.visited } url
  simp only [crawlVisit]
  by_cases hc : pyStrip (extractCleanText web
      { st with queue := rest, visited := url :: st.visited } url).2 ≠ []
  · rw [if_pos hc]
    obtain ⟨p1, p2, p3, p4, p5⟩ := linkPhase_spec cfg web
      { (extractCleanText web
          { st with queue := rest, visited := url :: st.visited } url).1 with
        contentMap := dictSet (extractCleanText web
          { st with queue := rest, visited := url :: st.visited } url).1.contentMap
          url (extractCleanText web
          { st with queue := rest, visited := url :: st.visited } url).2 }
      url depth
    refine ⟨?_, ?_, ?_, ?_, ?_⟩
    · rw [p1]; exact he1
    · refine Nat.le_trans p2 ?_
      have : ({ (extractCleanText web
          { st with queue := rest, visited := url :: st.visited } url).1 with
        contentMap := dictSet (extractCleanText web
          { st with queue := rest, visited := url :: st.visited } url).1.contentMap
          url (extractCleanText web
          { st with queue := rest, visited := url :: st.visited } url).2 }).queue
          = rest := he2
      rw [this]
    · intro k hk
      rw [p3] at hk
      rcases hasKey_dictSet_imp _ _ _ _ hk with h | h
      · exact Or.inl h
      · rw [he3] at h
        exact Or.inr h
    · intro k hk
      rw [p4] at hk
      exact (hmeta k).1 hk
    · intro k hk
      rw [p5] at hk
      exact (hmeta k).2 hk
  · rw [if_neg hc]
    obtain ⟨p1, p2, p3, p4, p5⟩ := linkPhase_spec cfg web
      (extractCleanText web
        { st with queue := rest, visited := url :: st.visited } url).1
      url depth
    refine ⟨?_, ?_, ?_, ?_, ?_⟩
    · rw [p1]; exact he1
    · refine Nat.le_trans p2 ?_
      rw [he2]
    · intro k hk
      rw [p3, he3] at hk
      exact Or.inr hk
    · intro k hk
      rw [p4] at hk
      exact (hmeta k).1 hk
    · intro k hk
      rw [p5] at hk
      exact (hmeta k).2 hk

theorem crawlLoopFuel_isSome {M S : Type} (cfg : CrawlConfig) (web : Web M S) :
    ∀ (n : Nat) (st : CrawlState M S), crawlPotential cfg web st < n →
      (crawlLoopFuel cfg web n st).isSome = true := by
  intro n
  induction n with
  | zero => intro st h; exact absurd h (by omega)
  | succ n ih =>
    intro st h
    rw [crawlLoopFuel]
    cases hq : st.queue with
    | nil => simp
    | cons head rest =>
      obtain ⟨url, depth⟩ := head
      dsimp only
      by_cases hbud : st.visited.length < cfg.maxPages
      · rw [if_pos hbud]
        by_cases hvis : url ∈ st.visited
        · rw [if_pos hvis]
          refine ih _ ?_
          unfold crawlPotential at h ⊢
          rw [hq] at h
          simp only [List.length_cons] at h ⊢
          omega
        · rw [if_neg hvis]
          refine ih _ ?_
          obtain ⟨hv, hqle, _, _, _⟩ := crawlVisit_spec cfg web st url depth rest
          unfold crawlPotential at h ⊢
          rw [hq] at h
          rw [hv]
          simp only [List.length_cons] at h ⊢
          have hsub : cfg.maxPages - st.visited.length =
              (cfg.maxPages - (st.visited.length + 1)) + 1 := by omega
          rw [hsub, Nat.add_mul, one_mul] at h
          generalize hX : (cfg.maxPages - (st.visited.length + 1)) *
            (linkBound web + 1) = X at h ⊢
          omega
      · rw [if_neg hbud]
        simp

theorem crawlLoopFuel_visitedBound {M S : Type} (cfg : CrawlConfig)
    (web : Web M S) :
    ∀ (n : Nat) (st r : CrawlState M S), crawlLoopFuel cfg web n st = some r →
      st.visited.length ≤ cfg.maxPages → r.visited.length ≤ cfg.maxPages := by
  intro n
  induction n with
  | zero =>
    intro st r h
    exact absurd h (by simp [crawlLoopFuel])
  | succ n ih =>
    intro st r h hb
    rw [crawlLoopFuel] at h
    cases hq : st.queue with
    | nil =>
      rw [hq] at h
      dsimp only at h
      injection h with h
      subst h
      exact hb
    | cons head rest =>
      obtain ⟨url, depth⟩ := head
      rw [hq] at h
      dsimp only at h
      by_cases hbud : st.visited.length < cfg.maxPages
      · rw [if_pos hbud] at h
        by_cases hvis : url ∈ st.visited
        · rw [if_pos hvis] at h
          exact ih _ _ h hb
        · rw [if_neg hvis] at h
          refine ih _ _ h ?_
          obtain ⟨hv, _, _, _, _⟩ := crawlVisit_spec cfg web st url depth rest
          rw [hv]
          simp only [List.length_cons]
          omega
      · rw [if_neg hbud] at h
        injection h with h
        subst h
        exact hb

/-- The invariant behind the corrected C1 claim: every key of `content_map`,
`url_metadata` and `url_structure` names a visited URL. -/
def goodKeys {M S : Type} (st : CrawlState M S) : Prop :=
  (∀ k, hasKey st.contentMap k = true → k ∈ st.visited) ∧
  (∀ k, hasKey st.metadataMap k = true → k ∈ st.visited) ∧
  (∀ k, hasKey st.structureMap k = true → k ∈ st.visited)

theorem crawlVisit_goodKeys {M S : Type} (cfg : CrawlConfig) (web : Web M S)
    (st : CrawlState M S) (url : Str) (depth : Nat)
    (rest : List (Str × Nat)) (hg : goodKeys st) :
    goodKeys (crawlVisit cfg web st url depth rest) := by
  obtain ⟨hv, _, hc, hm, hs⟩ := crawlVisit_spec cfg web st url depth rest
  refine ⟨?_, ?_, ?_⟩
  · intro k hk
    rw [hv]
    rcases hc k hk with h | h
    · subst h; exact List.mem_cons_self _ _
    · exact List.mem_cons_of_mem _ (hg.1 k h)
  · intro k hk
    rw [hv]
    rcases hm k hk with h | h
    · subst h; exact List.mem_cons_self _ _
    · exact List.mem_cons_of_mem _ (hg.2.1 k h)
  · intro k hk
    rw [hv]
    rcases hs k hk with h | h
    · subst h; exact List.mem_cons_self _ _
    · exact List.mem_cons_of_mem _ (hg.2.2 k h)

theorem crawlLoopFuel_goodKeys {M S : Type} (cfg : CrawlConfig)
    (web : Web M S) :
    ∀ (n : Nat) (st r : CrawlState M S), crawlLoopFuel cfg web n st = some r →
      goodKeys st → goodKeys r := by
  intro n
  induction n with
  | zero =>
    intro st r h
    exact absurd h (by simp [crawlLoopFuel])
  | succ n ih =>
    intro st r h hg
    rw [crawlLoopFuel] at h
    cases hq : st.queue with
    | nil =>
      rw [hq] at h
      dsimp only at h
      injection h with h
      subst h
      exact hg
    | cons head rest =>
      obtain ⟨url, depth⟩ := head
      rw [hq] at h
      dsimp only at h
      by_cases hbud : st.visited.length < cfg.maxPages
      · rw [if_pos hbud] at h
        by_cases hvis : url ∈ st.visited
        · rw [if_pos hvis] at h
          exact ih _ _ h hg
        · rw [if_neg hvis] at h
          exact ih _ _ h (crawlVisit_goodKeys cfg web st url depth rest hg)
      · rw [if_neg hbud] at h
        injection h with h
        subst h
        exact hg

theorem getLinksFold_depths {M S : Type} (url : Str) (depth : Nat)
    (ls : List (Str × Str)) :
    ∀ (st : CrawlState M S) (acc : List Str),
      (∀ x, dictGet? st.depths x = some (depth + 1) →
        dictGet? ((ls.foldl (getLinksFold url depth) (st, acc)).1).depths x =
          some (depth + 1)) ∧
      (∀ l ∈ ls, isValidUrl l.1 url = true → l.1 ∉ st.visited →
        dictGet? ((ls.foldl (getLinksFold url depth) (st, acc)).1).depths
          l.1 = some (depth + 1)) := by
  induction ls with
  | nil =>
    intro st acc
    exact ⟨fun x h => h, by simp⟩
  | cons l ls ih =>
    intro st acc
    simp only [List.foldl_cons]
    by_cases hc : isValidUrl l.1 url = true ∧ l.1 ∉ st.visited
    · rw [getLinksFold, if_pos hc]
      set st' : CrawlState M S := { st with
        hierarchy := dictAppend st.hierarchy url l.1,
        depths := dictSet st.depths l.1 (depth + 1),
        titles :=
          if l.2 ≠ [] ∧ ¬(hasKey st.titles l.1 = true) then
            dictSet st.titles l.1 l.2
          else st.titles } with hst'
      have hdep : ∀ x, dictGet? st.depths x = some (depth + 1) →
          dictGet? st'.depths x = some (depth + 1) := by
        intro x hx
        show dictGet? (dictSet st.depths l.1 (depth + 1)) x = some (depth + 1)
        by_cases hxl : x = l.1
        · subst hxl
          exact dictGet?_dictSet_self _ _ _
        · rw [dictGet?_dictSet_ne _ _ _ _ hxl]
          exact hx
      have hself : dictGet? st'.depths l.1 = some (depth + 1) :=
        dictGet?_dictSet_self _ _ _
      refine ⟨fun x hx => (ih st' (acc ++ [l.1])).1 x (hdep x hx), ?_⟩
      intro l' hl' hval hnvis
      rcases List.mem_cons.mp hl' with h | h
      · subst h
        exact (ih st' (acc ++ [l'.1])).1 l'.1 hself
      · refine (ih st' (acc ++ [l.1])).2 l' h hval ?_
        show l'.1 ∉ st.visited
        exact hnvis
    · rw [getLinksFold, if_neg hc]
      refine ⟨fun x hx => (ih st acc).1 x hx, ?_⟩
      intro l' hl' hval hnvis
      rcases List.mem_cons.mp hl' with h | h
      · subst h
        exact absurd ⟨hval, hnvis⟩ hc
      · exact (ih st acc).2 l' h hval hnvis

/-- C5 (amended): during link discovery from a page at depth `d` (below the
depth cap, with a successful fetch), the crawl sets `depths[link] = d + 1`
for **every** in-scope, not-yet-visited link on the page — unconditionally,
overwriting any previously recorded depth.  Only titles carry the
only-if-unset guard the claim described. -/
theorem getLinks_depths_amended {M S : Type} (maxDepth : Nat) (web : Web M S)
    (st : CrawlState M S) (url : Str) (depth : Nat) (page : Page M S)
    (hd : depth < maxDepth) (hf : fetch web url = some page) :
    ∀ l ∈ page.links, isValidUrl l.1 url = true → l.1 ∉ st.visited →
      dictGet? (getLinks maxDepth web st url depth).1.depths l.1 =
        some (depth + 1) := by
  intro l hl hval hnvis
  unfold getLinks
  rw [if_neg (by omega), hf]
  exact (getLinksFold_depths url depth page.links st []).2 l hl hval hnvis

/-- C1 (amended): once `crawl(seed_url)` returns, every key of `content`,
`metadata` and `structure` is a member of the visited set.  (The original
claim also required this of `titles` and `depths`; those two maps may hold
links discovered by `get_links` from a visited page but never themselves
visited, e.g. when the page budget runs out first, as the counterexample
shows.  `hierarchy` keys stay exempt from the requirement, exactly as in
the original claim.) -/
theorem crawl_keys_visited_amended {M S : Type} (cfg : CrawlConfig)
    (web : Web M S) (seed : Str) :
    (∀ k, hasKey (crawl cfg web seed).contentMap k = true →
      k ∈ (crawl cfg web seed).visited) ∧
    (∀ k, hasKey (crawl cfg web seed).metadataMap k = true →
      k ∈ (crawl cfg web seed).visited) ∧
    (∀ k, hasKey (crawl cfg web seed).structureMap k = true →
      k ∈ (crawl cfg web seed).visited) := by
  have hinit : goodKeys (initState (M := M) (S := S) seed) := by
    refine ⟨?_, ?_, ?_⟩ <;> intro k hk <;> simp [initState, hasKey] at hk
  unfold crawl
  cases h : crawlLoopFuel cfg web
      (crawlPotential cfg web (initState seed) + 1) (initState seed) with
  | none =>
    simp only [Option.getD_none]
    exact hinit
  | some r =>
    simp only [Option.getD_some]
    exact crawlLoopFuel_goodKeys cfg web _ _ _ h hinit

/- Concrete data for the crawl counterexamples and witnesses.  URLs use a
minimal `scheme://host/path` shape; pages carry unit metadata/structure,
the non-blank rendered text `"x"`, no trafilatura alternative, and the given
links. -/

/-- The seed URL `h://a/` of the example webs. -/
def urlSeedEx : Str := "h://a/".data

/-- The URL `h://a/b` of the example webs. -/
def urlAEx : Str := "h://a/b".data

/-- The URL `h://a/c` of the example webs. -/
def urlLEx : Str := "h://a/c".data

/-- An example page with unit metadata/structure and the given links. -/
def pageUnit (ls : List (Str × Str)) : Page Unit Unit :=
  ⟨"T".data, (), (), ['x'], none, ls⟩

/-- A one-page web: the seed links to `h://a/b`. -/
def webSmall : Web Unit Unit := [(urlSeedEx, pageUnit [(urlAEx, ['t'])])]

/-- A three-page web: the seed links to `h://a/b` and `h://a/c`, and
`h://a/b` links to `h://a/c` again. -/
def webThree : Web Unit Unit :=
  [(urlSeedEx, pageUnit [(urlAEx, ['t']), (urlLEx, ['u'])]),
   (urlAEx, pageUnit [(urlLEx, ['v'])]),
   (urlLEx, pageUnit [])]

/-- C1 counterexample: crawling `webSmall` with `max_pages = 1` visits only
the seed, yet the returned `depths` and `titles` both contain the discovered
link `h://a/b`, which is not in the visited set — so the claimed invariant
fails for `depths` and `titles`. -/
theorem crawl_keys_visited_counterexample :
    hasKey (crawl ⟨1, 1⟩ webSmall urlSeedEx).depths urlAEx = true ∧
    hasKey (crawl ⟨1, 1⟩ webSmall urlSeedEx).titles urlAEx = true ∧
    urlAEx ∉ (crawl ⟨1, 1⟩ webSmall urlSeedEx).visited :=
  ⟨by decide, by decide, by decide⟩

/-- C1 witness: the amended theorem at the concrete one-page web,
discharging the key-membership hypothesis at the seed, whose content was
stored. -/
theorem crawl_keys_visited_witness :
    urlSeedEx ∈ (crawl ⟨1, 1⟩ webSmall urlSeedEx).visited :=
  (crawl_keys_visited_amended ⟨1, 1⟩ webSmall urlSeedEx).1 urlSeedEx
    (by decide)

/-- The crawl state reached in `crawl(h://a/)` over `webThree` at the moment
`get_links(h://a/b, 1)` runs: seed and `h://a/b` visited, `h://a/c` queued
at depth 1 with its depth already recorded as 1 from its first discovery. -/
def stMid : CrawlState Unit Unit :=
  ⟨[urlAEx, urlSeedEx], [(urlLEx, 1)], [],
   [(urlSeedEx, [urlAEx, urlLEx])], [],
   [(urlSeedEx, 0), (urlAEx, 1), (urlLEx, 1)], [], []⟩

/-- C5 counterexample: `h://a/c` has recorded depth 1 and is not yet
visited; discovering it again from `h://a/b` at depth 1 overwrites its depth
to 2 — and the full crawl of `webThree` with `max_depth = 2` indeed returns
`depths[h://a/c] = 2`, not the first-discovery value 1.  The claimed
only-if-unset guard does not exist for depths. -/
theorem getLinks_depth_overwrite_counterexample :
    dictGet? stMid.depths urlLEx = some 1 ∧
    urlLEx ∉ stMid.visited ∧
    isValidUrl urlLEx urlAEx = true ∧
    dictGet? (getLinks 2 webThree stMid urlAEx 1).1.depths urlLEx = some 2 ∧
    dictGet? (crawl ⟨10, 2⟩ webThree urlSeedEx).depths urlLEx = some 2 :=
  ⟨by decide, by decide, by decide, by decide, by decide⟩

/-- C5 witness: the amended theorem at the concrete mid-crawl state,
discharging the depth-cap, fetch, membership, scope and non-visited
hypotheses. -/
theorem getLinks_depths_amended_witness :
    dictGet? (getLinks 2 webThree stMid urlAEx 1).1.depths urlLEx =
      some (1 + 1) :=
  getLinks_depths_amended 2 webThree stMid urlAEx 1
    (pageUnit [(urlLEx, ['v'])]) (by decide) (by rfl) (urlLEx, ['v'])
    (by decide) (by decide) (by decide)

/-- C6: the crawl loop terminates within the computed fuel bound (the page
budget bounds the number of visits, and every skipped duplicate shortens the
queue), and the visited set never exceeds `max_pages`: it is bounded in the
returned state, and every loop prefix preserves the bound. -/
theorem crawl_bounded_and_terminates {M S : Type} (cfg : CrawlConfig)
    (web : Web M S) (seed : Str) :
    (crawlLoopFuel cfg web (crawlPotential cfg web (initState seed) + 1)
        (initState (M := M) (S := S) seed)).isSome = true ∧
    (crawl cfg web seed).visited.length ≤ cfg.maxPages ∧
    (∀ (fuel : Nat) (st r : CrawlState M S),
      crawlLoopFuel cfg web fuel st = some r →
      st.visited.length ≤ cfg.maxPages →
      r.visited.length ≤ cfg.maxPages) := by
  refine ⟨crawlLoopFuel_isSome cfg web _ _ (by omega), ?_,
    crawlLoopFuel_visitedBound cfg web⟩
  unfold crawl
  cases h : crawlLoopFuel cfg web
      (crawlPotential cfg web (initState seed) + 1) (initState seed) with
  | none =>
    simp only [Option.getD_none]
    simp [initState]
  | some r =>
    simp only [Option.getD_some]
    exact crawlLoopFuel_visitedBound cfg web _ _ _ h (by simp [initState])

/-- C6 witness: the bound and preservation conjuncts instantiated at the
concrete one-page web, discharging the preservation hypotheses at the
initial state. -/
theorem crawl_bounded_witness :
    (crawl ⟨1, 1⟩ webSmall urlSeedEx).visited.length ≤ 1 ∧
    (initState urlSeedEx : CrawlState Unit Unit).visited.length ≤ 1 :=
  ⟨(crawl_bounded_and_terminates ⟨1, 1⟩ webSmall urlSeedEx).2.1, by decide⟩

/- ### Response handling in `ModuleExtractor._extract_module_with_submodules`
(src/pulse/utils/extractor.py lines 548–581)

The OpenAI completion and `json.loads` are capabilities: the completion's
reply text is an input, and JSON parsing a parameter returning `none` on a
`JSONDecodeError` (any other exception inside the `try` is caught by the
same handlers and yields the same placeholder, so `none` covers every
failure).  Python `str.find` / `str.rfind` return the first / last index of
the character or `-1`; the slice `result_text[json_start:json_end]` is taken
with the non-negative indices the guard guarantees. -/

/-- Python objects as decoded from JSON. -/
inductive PyVal where
  | str (s : Str)
  | num (n : Int)
  | obj (fields : List (Str × PyVal))
  | arr (xs : List PyVal)
  | boolean (b : Bool)
  | null

/-- Worker for `pyFind`. -/
def pyFindAux (c : Char) : Str → Nat → Int
  | [], _ => -1
  | x :: xs, i => if x = c then (i : Int) else pyFindAux c xs (i + 1)

/-- Python `s.find(c)`: index of the first occurrence, `-1` if absent. -/
def pyFind (s : Str) (c : Char) : Int := pyFindAux c s 0

/-- Python `s.rfind(c)`: index of the last occurrence, `-1` if absent. -/
def pyRfind (s : Str) (c : Char) : Int :=
  let r := pyFind s.reverse c
  if r < 0 then -1 else (s.length : Int) - 1 - r

/-- Python `s[a:b]` for the non-negative indices used by the extractor. -/
def pySlice (s : Str) (a b : Int) : Str := (s.take b.toNat).drop a.toNat

/-- The placeholder module `{module: title, Description: "No description
available", Submodules: {}}` returned on every parse failure. -/
def placeholderModule (title : Str) : PyVal :=
  .obj [("module".data, .str title),
        ("Description".data, .str ("No description available").data),
        ("Submodules".data, .obj [])]

/-- The response-handling tail of `_extract_module_with_submodules`: strip
the reply, locate the first `{` and last `}`, parse only that slice, and
fall back to the placeholder module when there is no such bracket pair or
parsing fails. -/
def extractModuleResponse (parse : Str → Option PyVal) (title : Str)
    (resultText : Str) : PyVal :=
  let t := pyStrip resultText
  let jsonStart := pyFind t '{'
  let jsonEnd := pyRfind t '}' + 1
  if jsonStart ≥ 0 ∧ jsonEnd > jsonStart then
    match parse (pySlice t jsonStart jsonEnd) with
    | some m => m
    | none => placeholderModule title
  else placeholderModule title

/-- C9: whenever the stripped completion text has no `{`…`}` bracket pair,
or the bracketed slice fails to parse as JSON, the single-module extraction
returns the placeholder module `{module: title, Description: "No description
available", Submodules: {}}` — it never raises, so extraction continues for
the remaining chunks and modules. -/
theorem extractModuleResponse_fallback (parse : Str → Option PyVal)
    (title resultText : Str)
    (h : ¬(pyFind (pyStrip resultText) '{' ≥ 0 ∧
        pyRfind (pyStrip resultText) '}' + 1 >
          pyFind (pyStrip resultText) '{') ∨
      parse (pySlice (pyStrip resultText) (pyFind (pyStrip resultText) '{')
        (pyRfind (pyStrip resultText) '}' + 1)) = none) :
    extractModuleResponse parse title resultText = placeholderModule title := by
  simp only [extractModuleResponse]
  rcases h with h | h
  · rw [if_neg h]
  · by_cases hb : pyFind (pyStrip resultText) '{' ≥ 0 ∧
        pyRfind (pyStrip resultText) '}' + 1 > pyFind (pyStrip resultText) '{'
    · rw [if_pos hb, h]
    · rw [if_neg hb]

/-- C9 witness: the fallback theorem at a concrete bracket-free reply with
an always-failing parser, discharging the disjunctive hypothesis. -/
theorem extractModuleResponse_fallback_witness :
    extractModuleResponse (fun _ => none) ("T").data
        ("no json here").data =
      placeholderModule ("T").data :=
  extractModuleResponse_fallback (fun _ => none) ("T").data
    ("no json here").data (Or.inl (by decide))
